import Mathlib

/-!
Verification of the `line!` macro of the `ratatui-macros` repository
(`src/line.rs`) against its specification.

The macro has three arms:

* `line![]`             expands to `ratatui::text::Line::default()`;
* `line![v; n]`         expands to `ratatui::text::Line::from(vec![v.into(); n])`;
* `line![a, b, ...]`    (optional trailing comma) expands to
                        `ratatui::text::Line::from(vec![a.into(), b.into(), ...])`.

The consumed interface (`ratatui::text::Line`, `ratatui::text::Span`, the
`Into<Span>` conversion) is modelled below, together with the expansion of
each arm.  Side-effect claims are settled over a state-passing model of
expression evaluation, and the absence of a runtime error path over an
`Except`-valued model.
-/

namespace RatatuiMacros

/-- Model of `ratatui::style::Style`: optional foreground, background and
underline colours (colours rendered as `Nat` codes) together with the
`add_modifier` and `sub_modifier` bit sets (rendered as `Nat`). -/
structure Style where
  fg : Option Nat
  bg : Option Nat
  underlineColor : Option Nat
  addModifier : Nat
  subModifier : Nat
deriving DecidableEq, Repr

/-- Model of `Style::default()`: no colours, empty modifier sets. -/
def Style.default : Style := ⟨none, none, none, 0, 0⟩

/-- Model of `ratatui::layout::Alignment`. -/
inductive Alignment
  | left
  | center
  | right
deriving DecidableEq, Repr

/-- Model of `ratatui::text::Span`: a content string plus a style. -/
structure Span where
  content : String
  style : Style
deriving DecidableEq, Repr

/-- Model of `Span::raw`, the conversion used for plain strings: the given
content with the default style. -/
def Span.raw (s : String) : Span := ⟨s, Style.default⟩

/-- Model of `ratatui::text::Line`: a sequence of spans plus a line-level
style and an optional alignment. -/
structure Line where
  spans : List Span
  style : Style
  alignment : Option Alignment
deriving DecidableEq, Repr

/-- Model of `Line::default()`: no spans, default style, no alignment. -/
def Line.default : Line := ⟨[], Style.default, none⟩

/-- Model of `Line::from(vec![...])` (the `From<Vec<Span>>` impl): the given
spans, all other fields as in `Line::default()`. -/
def Line.fromSpans (spans : List Span) : Line := ⟨spans, Style.default, none⟩

/-- An argument expression of the macro, at the value level: either a plain
string (converted through `Span::raw` by ratatui's `From<&str> for Span`)
or an already-built span (converted by the identity, the std blanket impl
`From<T> for T`). -/
inductive SpanInput
  | str (s : String)
  | span (sp : Span)
deriving DecidableEq, Repr

/-- Model of `$span.into()` for the two argument kinds. -/
def SpanInput.into : SpanInput → Span
  | .str s => Span.raw s
  | .span sp => sp

/-- Expansion of the empty arm `line![]`. -/
def lineEmpty : Line := Line.default

/-- Expansion of the repeat arm `line![v; n]`:
`Line::from(vec![v.into(); n])`, where `vec![x; n]` builds a vector of `n`
clones of `x`. -/
def lineRepeat (v : SpanInput) (n : Nat) : Line :=
  Line.fromSpans (List.replicate n v.into)

/-- Expansion of the list arm `line![a, b, ...]`:
`Line::from(vec![a.into(), b.into(), ...])`. -/
def lineList (xs : List SpanInput) : Line :=
  Line.fromSpans (xs.map SpanInput.into)

/-- A surface invocation of the macro: empty, repeat, or comma list.  The
list arm records whether a trailing comma was written, which the matcher
`$($span:expr),+ $(,)?` accepts but binds to nothing. -/
inductive LineInvocation
  | empty
  | rep (v : SpanInput) (n : Nat)
  | list (args : List SpanInput) (trailingComma : Bool)
deriving DecidableEq, Repr

/-- The expansion of a surface invocation, arm by arm as in `macro_rules!
line`. -/
def expandLine : LineInvocation → Line
  | .empty => lineEmpty
  | .rep v n => lineRepeat v n
  | .list args _ => lineList args

/-- An effectful argument expression: evaluating it in a state yields a
value and a successor state.  An `Expr σ Span` stands for the whole of
`$span.into()` as it occurs in the expansion. -/
def Expr (σ α : Type) := σ → α × σ

/-- Evaluation of the elements of a `vec![a.into(), b.into(), ...]` literal:
left to right, each element exactly once, threading the state. -/
def runExprs {σ : Type} : List (Expr σ Span) → σ → List Span × σ
  | [], s => ([], s)
  | e :: es, s =>
    let r := e s
    let rest := runExprs es r.2
    (r.1 :: rest.1, rest.2)

/-- Effectful expansion of the list arm: evaluate the element expressions
left to right, then build the line from the resulting spans. -/
def lineListEff {σ : Type} (es : List (Expr σ Span)) (s : σ) : Line × σ :=
  let r := runExprs es s
  (Line.fromSpans r.1, r.2)

/-- Effectful expansion of the repeat arm
`Line::from(vec![$span.into(); $n])`: `vec![x; n]` lowers to
`from_elem(x, n)`, so the element expression is evaluated first and once,
then the count expression once, and the single resulting span value is
cloned to fill all `n` positions (`Clone` on the modelled span is the
derived field-wise copy, hence value identity). -/
def lineRepeatEff {σ : Type} (e : Expr σ Span) (cnt : Expr σ Nat) (s : σ) :
    Line × σ :=
  let r := e s
  let c := cnt r.2
  (Line.fromSpans (List.replicate c.1 r.1), c.2)

/-- An effectful surface invocation of the macro. -/
inductive LineInvocationEff (σ : Type)
  | empty
  | rep (e : Expr σ Span) (cnt : Expr σ Nat)
  | list (es : List (Expr σ Span))

/-- Effectful expansion of a surface invocation, arm by arm. -/
def expandLineEff {σ : Type} : LineInvocationEff σ → σ → Line × σ
  | .empty, s => (Line.default, s)
  | .rep e cnt, s => lineRepeatEff e cnt s
  | .list es, s => lineListEff es s

/-- An expression is pure when it returns a fixed value and leaves every
state unchanged. -/
def pureExpr {σ α : Type} (e : Expr σ α) : Prop :=
  ∃ v, ∀ s, e s = (v, s)

/-- All expressions supplied to an effectful invocation are pure. -/
def invocationPure {σ : Type} : LineInvocationEff σ → Prop
  | .empty => True
  | .rep e cnt => pureExpr e ∧ pureExpr cnt
  | .list es => ∀ e ∈ es, pureExpr e

/-- An expression that records the identifier `i` in a trace and returns
the span `sp`: a stand-in for a caller-supplied expression with an
observable side effect. -/
def traced (i : Nat) (sp : Span) : Expr (List Nat) Span :=
  fun tr => (sp, tr ++ [i])

/-- A possibly failing effectful expression: evaluating it either fails
with an error of type `ε` (a runtime failure inside the caller-supplied
code, such as a panic) or yields a value and a successor state. -/
def ExprE (σ ε α : Type) := σ → Except ε (α × σ)

/-- Fallible evaluation of the elements of a `vec![...]` literal: left to
right, stopping at the first failing element; the expansion itself
introduces no failure of its own. -/
def runExprsE {σ ε : Type} :
    List (ExprE σ ε Span) → σ → Except ε (List Span × σ)
  | [], s => .ok ([], s)
  | e :: es, s =>
    match e s with
    | .error x => .error x
    | .ok (v, s₁) =>
      match runExprsE es s₁ with
      | .error x => .error x
      | .ok (vs, s₂) => .ok (v :: vs, s₂)

/-- A fallible surface invocation of the macro. -/
inductive LineInvocationE (σ ε : Type)
  | empty
  | rep (e : ExprE σ ε Span) (cnt : ExprE σ ε Nat)
  | list (es : List (ExprE σ ε Span))

/-- Fallible expansion of a surface invocation, arm by arm: every failure
comes from a caller-supplied expression; each arm's own work (the default
constructor, `Line::from`, `vec!` and the clone-based repetition) always
succeeds. -/
def expandLineE {σ ε : Type} : LineInvocationE σ ε → σ → Except ε (Line × σ)
  | .empty, s => .ok (Line.default, s)
  | .rep e cnt, s =>
    match e s with
    | .error x => .error x
    | .ok (v, s₁) =>
      match cnt s₁ with
      | .error x => .error x
      | .ok (n, s₂) => .ok (Line.fromSpans (List.replicate n v), s₂)
  | .list es, s =>
    match runExprsE es s with
    | .error x => .error x
    | .ok (vs, s₂) => .ok (Line.fromSpans vs, s₂)

/-- A fallible expression never actually fails. -/
def totalExprE {σ ε α : Type} (e : ExprE σ ε α) : Prop :=
  ∀ s, ∃ v s₁, e s = .ok (v, s₁)

/-- All expressions supplied to a fallible invocation never fail. -/
def invocationTotal {σ ε : Type} : LineInvocationE σ ε → Prop
  | .empty => True
  | .rep e cnt => totalExprE e ∧ totalExprE cnt
  | .list es => ∀ e ∈ es, totalExprE e

end RatatuiMacros

namespace RatatuiMacros

/-- CLAIM C1: in the comma-separated list form, the resulting line's span
sequence equals the converted inputs in the same left-to-right order: it is
exactly the map of the conversion over the argument list, position by
position, with nothing dropped, reordered, or deduplicated. -/
theorem line_list_spans_in_order (xs : List SpanInput) :
    (lineList xs).spans = xs.map SpanInput.into ∧
    (lineList xs).spans.length = xs.length ∧
    ∀ i : Nat, (lineList xs).spans[i]? = (xs[i]?).map SpanInput.into := by
  refine ⟨rfl, by simp [lineList, Line.fromSpans], ?_⟩
  intro i
  simp [lineList, Line.fromSpans]

/-- CLAIM C3: the empty invocation `line![]` yields `Line::default()`, a
line with zero spans. -/
theorem line_empty_default :
    expandLine .empty = Line.default ∧ (expandLine .empty).spans = [] :=
  ⟨rfl, rfl⟩

/-- CLAIM C5: conversion into the span type is the identity on values that
are already spans, so a pre-built (possibly styled) span passed to the list
form appears unchanged in the resulting line. -/
theorem span_conversion_idempotent (sp : Span) (xs : List SpanInput) :
    SpanInput.into (.span sp) = sp ∧
    (lineList (.span sp :: xs)).spans = sp :: xs.map SpanInput.into :=
  ⟨rfl, rfl⟩

/-- CLAIM C10: the repeat form with count zero yields the same line as the
empty invocation: zero spans, default style, default (absent) alignment. -/
theorem line_repeat_zero_eq_empty (v : SpanInput) :
    expandLine (.rep v 0) = expandLine .empty ∧
    (lineRepeat v 0).spans = [] ∧
    (lineRepeat v 0).style = Style.default ∧
    (lineRepeat v 0).alignment = none :=
  ⟨rfl, rfl, rfl, rfl⟩

/-- CLAIM C2: the repeat form `line![v; n]` yields a line with exactly `n`
spans, each equal to the conversion of `v`. -/
theorem line_repeat_count_and_value (v : SpanInput) (n : Nat) :
    (lineRepeat v n).spans.length = n ∧
    ∀ sp ∈ (lineRepeat v n).spans, sp = v.into := by
  constructor
  · simp [lineRepeat, Line.fromSpans]
  · intro sp hsp
    simpa [lineRepeat, Line.fromSpans] using
      List.eq_of_mem_replicate hsp

/-- Witness for C2 at `line!["hello"; 2]`. -/
theorem line_repeat_count_and_value_witness :
    (lineRepeat (.str "hello") 2).spans.length = 2 ∧
    ∀ sp ∈ (lineRepeat (.str "hello") 2).spans,
      sp = SpanInput.into (.str "hello") :=
  line_repeat_count_and_value (.str "hello") 2

/-- CLAIM C8: the list arm's matcher `$($span:expr),+ $(,)?` binds the
trailing comma to nothing, so for any nonempty argument list the expansion
with a trailing comma equals the expansion without it. -/
theorem trailing_comma_irrelevant (args : List SpanInput)
    (h : args ≠ []) (b₁ b₂ : Bool) :
    expandLine (.list args b₁) = expandLine (.list args b₂) := rfl

/-- Witness for C8 at `line!["hello", "world",]` versus
`line!["hello", "world"]`. -/
theorem trailing_comma_irrelevant_witness :
    expandLine (.list [.str "hello", .str "world"] true) =
      expandLine (.list [.str "hello", .str "world"] false) :=
  trailing_comma_irrelevant [.str "hello", .str "world"] (by decide)
    true false

/-- CLAIM C4: in the repeat form the element expression is evaluated
exactly once: the resulting state is the state after a single evaluation
of `e` whatever the count `n`, and the one resulting span value is
duplicated to fill all `n` positions. -/
theorem line_repeat_evaluates_value_once {σ : Type} (e : Expr σ Span)
    (n : Nat) (s : σ) :
    lineRepeatEff e (fun t => (n, t)) s =
      (Line.fromSpans (List.replicate n (e s).1), (e s).2) := rfl

/-- CLAIM C6: in the list form, each supplied expression is evaluated
exactly once, in left-to-right invocation order, and nothing else is
evaluated: running the expansion over trace-recording expressions appends
exactly the identifier of each expression, in order, to the trace, while
the line collects their values in order. -/
theorem line_list_effects_in_order_once (ps : List (Nat × Span))
    (tr : List Nat) :
    lineListEff (ps.map fun p => traced p.1 p.2) tr =
      (Line.fromSpans (ps.map Prod.snd), tr ++ ps.map Prod.fst) := by
  suffices h : ∀ tr,
      runExprs (ps.map fun p => traced p.1 p.2) tr =
        (ps.map Prod.snd, tr ++ ps.map Prod.fst) by
    simp [lineListEff, h tr]
  induction ps with
  | nil => intro tr; simp [runExprs]
  | cons p ps ih =>
      intro tr
      simp [runExprs, traced, ih]

/-- CLAIM C9: the expansion is pure, stateless and deterministic: for any
form supplied with pure expressions, the resulting line does not depend on
the starting state and the state is left unchanged, so two invocations
with equal inputs yield equal lines and no hidden state flows between
invocations. -/
theorem expansion_pure_deterministic {σ : Type}
    (inv : LineInvocationEff σ) (h : invocationPure inv) (s₁ s₂ : σ) :
    (expandLineEff inv s₁).1 = (expandLineEff inv s₂).1 ∧
    (expandLineEff inv s₁).2 = s₁ := by
  cases inv with
  | empty => exact ⟨rfl, rfl⟩
  | rep e cnt =>
      obtain ⟨⟨v, hv⟩, ⟨n, hn⟩⟩ := h
      simp [expandLineEff, lineRepeatEff, hv, hn]
  | list es =>
      suffices hrun : ∀ (es : List (Expr σ Span)),
          (∀ e ∈ es, pureExpr e) → ∀ s₁ s₂ : σ,
          (runExprs es s₁).1 = (runExprs es s₂).1 ∧
          (runExprs es s₁).2 = s₁ by
        have h₁ := hrun es h s₁ s₂
        simp [expandLineEff, lineListEff, h₁.1, h₁.2]
      intro es hes
      induction es with
      | nil => intro s₁ s₂; exact ⟨rfl, rfl⟩
      | cons e es ih =>
          intro s₁ s₂
          obtain ⟨v, hv⟩ := hes e (List.mem_cons_self e es)
          have ih₁ := ih (fun f hf => hes f (List.mem_cons_of_mem e hf))
          simp [runExprs, hv, (ih₁ s₁ s₂).1, (ih₁ s₁ s₁).2]

/-- CLAIM C7: the expansion of any of the three arms has a single success
path and no runtime error path of its own: whenever every caller-supplied
expression evaluates without failing, the whole expansion evaluates to a
line without failing. -/
theorem expansion_total_no_runtime_error {σ ε : Type}
    (inv : LineInvocationE σ ε) (h : invocationTotal inv) (s : σ) :
    ∃ l s₁, expandLineE inv s = .ok (l, s₁) := by
  cases inv with
  | empty => exact ⟨Line.default, s, rfl⟩
  | rep e cnt =>
      obtain ⟨he, hcnt⟩ := h
      obtain ⟨v, s₁, hv⟩ := he s
      obtain ⟨n, s₂, hn⟩ := hcnt s₁
      exact ⟨Line.fromSpans (List.replicate n v), s₂, by
        simp [expandLineE, hv, hn]⟩
  | list es =>
      suffices hrun : ∀ (es : List (ExprE σ ε Span)),
          (∀ e ∈ es, totalExprE e) → ∀ s : σ,
          ∃ vs s₁, runExprsE es s = .ok (vs, s₁) by
        obtain ⟨vs, s₁, hvs⟩ := hrun es h s
        exact ⟨Line.fromSpans vs, s₁, by simp [expandLineE, hvs]⟩
      intro es hes
      induction es with
      | nil => intro s; exact ⟨[], s, rfl⟩
      | cons e es ih =>
          intro s
          obtain ⟨v, s₁, hv⟩ := hes e (List.mem_cons_self e es) s
          obtain ⟨vs, s₂, hvs⟩ :=
            ih (fun f hf => hes f (List.mem_cons_of_mem e hf)) s₁
          exact ⟨v :: vs, s₂, by simp [runExprsE, hv, hvs]⟩

/-- Witness for C7 at the list invocation `line!["hello"]` over a `Unit`
state with `Unit` errors. -/
theorem expansion_total_no_runtime_error_witness :
    ∃ l s₁, expandLineE (σ := Unit) (ε := Unit)
      (.list [fun s => .ok (Span.raw "hello", s)]) () = .ok (l, s₁) :=
  expansion_total_no_runtime_error
    (.list [fun s => .ok (Span.raw "hello", s)])
    (by
      intro e he
      simp only [List.mem_singleton] at he
      exact he ▸ fun s => ⟨Span.raw "hello", s, rfl⟩)
    ()

/-- Witness for C9 at the list invocation `line!["hello"]` over a `Nat`
state. -/
theorem expansion_pure_deterministic_witness :
    ((expandLineEff (σ := Nat)
        (.list [fun s => (Span.raw "hello", s)]) 0).1 =
      (expandLineEff (σ := Nat)
        (.list [fun s => (Span.raw "hello", s)]) 7).1) ∧
    (expandLineEff (σ := Nat)
        (.list [fun s => (Span.raw "hello", s)]) 0).2 = 0 :=
  expansion_pure_deterministic
    (.list [fun s => (Span.raw "hello", s)])
    (by
      intro e he
      simp only [List.mem_singleton] at he
      exact he ▸ ⟨Span.raw "hello", fun s => rfl⟩)
    0 7

end RatatuiMacros
